import Mathlib

set_option maxHeartbeats 1000000

namespace Fixedwidth

/-- Errors produced by the encoder: `invalidType` embeds Go's
`MarshalInvalidTypeError` (carrying the type name), `textMarshalErr` embeds an
error returned by a value's own `MarshalText` method. -/
inductive GoErr where
  | invalidType (typeName : String)
  | textMarshalErr (msg : String)
deriving DecidableEq, Repr

/-- The integer kinds accepted by `newValueEncoder` in encode.go line 147:
`reflect.Int, reflect.Int64, reflect.Int32, reflect.Int16, reflect.Int8`. -/
inductive IntKind where
  | int | int64 | int32 | int16 | int8
deriving DecidableEq, Repr

/-- Shallow embedding of the Go types (`reflect.Type`) that the encoder
inspects.  `marshalerT` stands for a type implementing
`encoding.TextMarshaler`; `otherT name` stands for any other kind (bool,
slices seen as fields, maps, ...) with its `reflect.Type.Name()`. -/
inductive GoType where
  | strT
  | intT (k : IntKind)
  | float64T
  | float32T
  | ptrT (elem : GoType)
  | ifaceT
  | structT (fields : List (List Char × GoType))
  | marshalerT
  | otherT (name : String)

mutual
/-- Shallow embedding of Go values as seen through `reflect.Value`.  A struct
value carries, per field, the `fixed` tag, the declared field type and the
field value, in declaration order.  Floats are embedded as exact rationals. -/
inductive GoValue where
  | strV (s : List Char)
  | intV (k : IntKind) (n : Int)
  | f64V (x : Rat)
  | f32V (x : Rat)
  | ptrV (elem : GoType) (v : OptValue)
  | ifaceV (v : OptValue)
  | structV (fields : FieldList)
  | sliceV (elems : List GoValue)
  | marshalerV (res : Except String (List Char))
  | otherV (name : String)

/-- A possibly-nil reference (the pointee of a pointer, or the dynamic value
held by an interface). -/
inductive OptValue where
  | nilV
  | someV (v : GoValue)

/-- The fields of a struct value: tag, declared type, value, in declaration
order (mirrors `v.Type().Field(i)` / `v.Field(i)`). -/
inductive FieldList where
  | fnil
  | fcons (tag : List Char) (ty : GoType) (val : GoValue) (rest : FieldList)
end

/-- Tags and declared types of a struct value, mirroring how `reflect`
exposes the struct type of a struct value. -/
def fieldTypes : FieldList → List (List Char × GoType)
  | .fnil => []
  | .fcons tag ty _ rest => (tag, ty) :: fieldTypes rest

/-- The `reflect.Type` of a value (`reflect.Value.Type()`). -/
def GoValue.typeOf : GoValue → GoType
  | .strV _ => .strT
  | .intV k _ => .intT k
  | .f64V _ => .float64T
  | .f32V _ => .float32T
  | .ptrV e _ => .ptrT e
  | .ifaceV _ => .ifaceT
  | .structV fs => .structT (fieldTypes fs)
  | .sliceV _ => .otherT ""
  | .marshalerV _ => .marshalerT
  | .otherV n => .otherT n

/-! ### Decimal formatting (strconv.Itoa / strconv.FormatFloat) -/

/-- Fuel-driven digit loop underlying `natDec`: pushes the decimal digits of
`n` (least significant first) in front of `acc`. -/
def natDecAux : Nat → Nat → List Char → List Char
  | 0, _, acc => acc
  | fuel + 1, n, acc =>
    let acc2 := Nat.digitChar (n % 10) :: acc
    if n / 10 = 0 then acc2 else natDecAux fuel (n / 10) acc2

/-- Decimal digits of a natural number, most significant first, with no
leading zeros (and `['0']` for zero) — the digit core of `strconv.Itoa`. -/
def natDec (n : Nat) : List Char := natDecAux (n + 1) n []

/-- Embedding of `strconv.Itoa` on the (mathematical) integer held by a Go
signed integer value: an optional leading minus sign followed by the decimal
digits of the absolute value. -/
def itoa (n : Int) : List Char :=
  if n < 0 then '-' :: natDec n.natAbs else natDec n.toNat

/-- Round the fraction `n / d` (with `d` positive) to the nearest integer,
ties to even — the rounding `strconv.FormatFloat` applies when reducing to a
fixed number of fraction digits. -/
def roundHalfEven (n d : Int) : Int :=
  let q := Int.fdiv n d
  let r := n - q * d
  if 2 * r < d then q
  else if d < 2 * r then q + 1
  else if q % 2 = 0 then q else q + 1

/-- Embedding of `strconv.FormatFloat(x, 'f', k, _)` on the exact rational
value `x` of the float: sign taken from `x`, then the magnitude `|x|`
(numerator `x.num.natAbs` over denominator `x.den`) scaled by `10^k`,
rounded to an integer and printed in fixed (never scientific) notation with
exactly `k` digits after the point.  The repository only instantiates
`k = 2`. -/
def fmtFixed (k : Nat) (x : Rat) : List Char :=
  let m := (roundHalfEven ((x.num.natAbs * 10 ^ k : Nat) : Int) (x.den : Int)).toNat
  let fr := natDec (m % 10 ^ k)
  (if x.num < 0 then ['-'] else []) ++ natDec (m / 10 ^ k) ++ ['.']
    ++ (List.replicate (k - fr.length) '0' ++ fr)

/-! ### Position-tag parsing.

The function `parseTag` is called by `structEncoder` (encode.go line 165) but
its definition lives in a file of the repository that is not part of the
sources here, so it is reconstructed from the specification. -/

/-- Split a character list at every comma (the tag mini-language separator). -/
def splitComma : List Char → List (List Char)
  | [] => [[]]
  | c :: rest =>
    match splitComma rest with
    | [] => if c = ',' then [[], []] else [[c]]
    | cur :: more => if c = ',' then [] :: cur :: more else (c :: cur) :: more

/-- Digit-accumulating loop of `parseNatList`; fails on any non-digit. -/
def parseNatAux : Nat → List Char → Option Nat
  | acc, [] => some acc
  | acc, c :: rest =>
    if c.isDigit then parseNatAux (10 * acc + (c.toNat - 48)) rest else none

/-- Parse a non-empty all-digit character list as a natural number. -/
def parseNatList (cs : List Char) : Option Nat :=
  match cs with
  | [] => none
  | _ => parseNatAux 0 cs

/-- Layout descriptor of one struct field (encode.go lines 184-188): the
1-based inclusive byte range, the leftpad flag, and the resolved output
bytes. -/
structure fieldSpec where
  startPos : Nat
  endPos : Nat
  leftpad : Bool
  value : List Char
deriving DecidableEq, Repr

/-- Width of the field's byte range (encode.go lines 190-192). -/
def fieldSpec.fieldLength (f : fieldSpec) : Nat := f.endPos - f.startPos + 1

/-- Modelled from the spec: the repository's `parseTag` (called at encode.go
line 165 but defined outside the given sources).  Per spec §4.1 and §3, the
declaration has shape `"<start>,<end>[,leftpad]"` with 1-based inclusive
bounds satisfying `1 ≤ startPos ≤ endPos`; a declaration that is absent or
malformed (wrong token count, non-numeric bounds, or `end < start`) yields
no layout, signalling that the field is skipped. -/
def parseTag (tag : List Char) : Option fieldSpec :=
  match splitComma tag with
  | [a, b] =>
    match parseNatList a, parseNatList b with
    | some st, some en =>
      if 1 ≤ st ∧ st ≤ en then some ⟨st, en, false, []⟩ else none
    | _, _ => none
  | [a, b, c] =>
    if c = ['l', 'e', 'f', 't', 'p', 'a', 'd'] then
      match parseNatList a, parseNatList b with
      | some st, some en =>
        if 1 ≤ st ∧ st ≤ en then some ⟨st, en, true, []⟩ else none
      | _, _ => none
    else none
  | _ => none

/-- Fill character used when left-padding a short field (encode.go lines
194-215): resolved from the field's declared type, unwrapping pointers;
`'0'` for the integer and floating-point kinds, `' '` for everything else
(TextMarshaler implementors, interfaces, structs, strings, and the default
branch). -/
def leftpadChar : GoType → Char
  | .marshalerT => ' '
  | .ptrT e => leftpadChar e
  | .ifaceT => ' '
  | .structT _ => ' '
  | .strT => ' '
  | .intT _ => '0'
  | .float64T => '0'
  | .float32T => '0'
  | .otherT _ => ' '

/-! ### Line-buffer assembly (`encodeSpecs`, encode.go lines 217-229) -/

/-- Embedding of Go's `copy(data[lo:hi], src)` on a line buffer: position `i`
receives `src[i - lo]` when `lo ≤ i < hi` and `src` reaches that offset;
every other position keeps its previous byte.  The length is preserved. -/
def copyRange (data : List Char) (lo hi : Nat) (src : List Char) : List Char :=
  (List.range data.length).map fun i =>
    if lo ≤ i ∧ i < hi ∧ i - lo < src.length
    then src.getD (i - lo) ' ' else data.getD i ' '

/-- The running-maximum loop of `encodeSpecs` (encode.go lines 218-223)
computing the line length `ll`. -/
def maxEndPos (specs : List fieldSpec) : Nat :=
  specs.foldl (fun ll s => if s.endPos > ll then s.endPos else ll) 0

/-- The copy loop of `encodeSpecs` (encode.go lines 225-227): fold the
fields' `copy` calls over an initial buffer. -/
def encodeInto (data : List Char) (specs : List fieldSpec) : List Char :=
  specs.foldl (fun d s => copyRange d (s.startPos - 1) s.endPos s.value) data

/-- Embedding of `encodeSpecs` (encode.go lines 217-229): build a
space-filled buffer as long as the largest `endPos` and copy every field's
bytes into its declared range, in order. -/
def encodeSpecs (specs : List fieldSpec) : List Char :=
  encodeInto (List.replicate (maxEndPos specs) ' ') specs

/-- Decidable equality on encoder results, used to evaluate the embedding on
concrete inputs. -/
instance exceptDecEq {ε α : Type} [DecidableEq ε] [DecidableEq α] :
    DecidableEq (Except ε α) := fun x y =>
  match x, y with
  | .ok a, .ok b =>
    if h : a = b then isTrue (by rw [h]) else isFalse (by simp [h])
  | .ok _, .error _ => isFalse (by simp)
  | .error _, .ok _ => isFalse (by simp)
  | .error e, .error f =>
    if h : e = f then isTrue (by rw [h]) else isFalse (by simp [h])

/-! ### Leaf encoders (encode.go lines 231-263) -/

/-- `nilEncoder` (encode.go lines 256-258): a nil value produces no bytes and
no error. -/
def nilEncoder (_ : GoValue) : Except GoErr (List Char) := .ok []

/-- `stringEncoder` (encode.go lines 242-244): the raw bytes of the string. -/
def stringEncoder : GoValue → Except GoErr (List Char)
  | .strV s => .ok s
  | v => nilEncoder v

/-- `intEncoder` (encode.go lines 246-248): `strconv.Itoa` of the integer. -/
def intEncoder : GoValue → Except GoErr (List Char)
  | .intV _ n => .ok (itoa n)
  | v => nilEncoder v

/-- `floatEncoder(perc, bitSize)` (encode.go lines 250-254):
`strconv.FormatFloat(v.Float(), 'f', perc, bitSize)` on the float's exact
rational value. -/
def floatEncoder (perc _bitSize : Nat) : GoValue → Except GoErr (List Char)
  | .f64V x => .ok (fmtFixed perc x)
  | .f32V x => .ok (fmtFixed perc x)
  | v => nilEncoder v

/-- `textMarshalerEncoder` (encode.go lines 231-233): delegate to the value's
own `MarshalText`, passing its error through unchanged. -/
def textMarshalerEncoder : GoValue → Except GoErr (List Char)
  | .marshalerV (.ok bs) => .ok bs
  | .marshalerV (.error msg) => .error (.textMarshalErr msg)
  | v => nilEncoder v

/-- `unknownTypeEncoder` (encode.go lines 260-263): always fail with a
`MarshalInvalidTypeError` carrying the type's name. -/
def unknownTypeEncoder (name : String) (_ : GoValue) : Except GoErr (List Char) :=
  .error (.invalidType name)

mutual
/-- Embedding of `newValueEncoder(t)` applied to a value (encode.go lines
132-155): the TextMarshaler capability is recognized first, then dispatch on
the type's kind; pointer and interface handling (encode.go lines 235-240)
recurses on the pointee's dynamic type, and any unrecognized kind falls
through to `unknownTypeEncoder`. -/
def newValueEncoder : GoType → GoValue → Except GoErr (List Char)
  | .marshalerT, v => textMarshalerEncoder v
  | .ptrT _, .ptrV _ .nilV => .ok []
  | .ptrT _, .ptrV _ (.someV e) => newValueEncoder e.typeOf e
  | .ptrT _, v => nilEncoder v
  | .ifaceT, .ifaceV .nilV => .ok []
  | .ifaceT, .ifaceV (.someV e) => newValueEncoder e.typeOf e
  | .ifaceT, v => nilEncoder v
  | .structT _, .structV fs => (structEncoderSpecs fs).map encodeSpecs
  | .structT _, v => nilEncoder v
  | .strT, v => stringEncoder v
  | .intT _, v => intEncoder v
  | .float64T, v => floatEncoder 2 64 v
  | .float32T, v => floatEncoder 2 32 v
  | .otherT n, v => unknownTypeEncoder n v

/-- The field loop of `structEncoder` (encode.go lines 158-180): fields whose
tag does not parse are skipped; an encoder error on a field's value aborts
with that error; otherwise the produced bytes — left-padded with
`leftpadChar` when they are shorter than the field and `leftpad` is set —
are recorded in the field's spec. -/
def structEncoderSpecs : FieldList → Except GoErr (List fieldSpec)
  | .fnil => .ok []
  | .fcons tag ty val rest =>
    match parseTag tag with
    | none => structEncoderSpecs rest
    | some spec =>
      match newValueEncoder ty val with
      | .error e => .error e
      | .ok value =>
        let spec2 :=
          if value.length < spec.fieldLength ∧ spec.leftpad then
            { spec with value :=
                List.replicate (spec.fieldLength - value.length) (leftpadChar ty) ++ value }
          else
            { spec with value := value }
        match structEncoderSpecs rest with
        | .error e => .error e
        | .ok specs => .ok (spec2 :: specs)
end

/-- `structEncoder` (encode.go lines 157-182) as a value encoder: gather the
field specs and assemble the line buffer. -/
def structEncoder : GoValue → Except GoErr (List Char)
  | .structV fs => (structEncoderSpecs fs).map encodeSpecs
  | v => nilEncoder v

/-- `ptrInterfaceEncoder` (encode.go lines 235-240) as a value encoder: nil
produces no bytes; otherwise encode the held value by its dynamic type. -/
def ptrInterfaceEncoder : GoValue → Except GoErr (List Char)
  | .ptrV _ .nilV => .ok []
  | .ptrV _ (.someV e) => newValueEncoder e.typeOf e
  | .ifaceV .nilV => .ok []
  | .ifaceV (.someV e) => newValueEncoder e.typeOf e
  | v => nilEncoder v

/-! ### Record writer (encode.go lines 57-128) and entry point (lines 39-46).

The buffered sink is modelled as the list of bytes written so far; writes to
it cannot fail (in `Marshal` the sink is an in-memory buffer), so each writer
operation returns the grown sink together with an optional encoder error. -/

/-- `Encoder.writeLine` (encode.go lines 121-128): encode one value by its
type and append the bytes to the sink; an encoder error leaves the sink
unchanged. -/
def writeLine (acc : List Char) (v : GoValue) : List Char × Option GoErr :=
  match newValueEncoder v.typeOf v with
  | .error e => (acc, some e)
  | .ok b => (acc ++ b, none)

/-- The element loop of `Encoder.writeLines` (encode.go lines 105-117): each
element becomes one line, the terminator is written after every line except
the last, and the first error aborts immediately. -/
def writeLinesLoop (lineEnd : List Char) (acc : List Char) :
    List GoValue → List Char × Option GoErr
  | [] => (acc, none)
  | [v] => writeLine acc v
  | v :: w :: rest =>
    match writeLine acc v with
    | (acc2, some e) => (acc2, some e)
    | (acc2, none) => writeLinesLoop lineEnd (acc2 ++ lineEnd) (w :: rest)

/-- `Encoder.writeLines` (encode.go lines 100-119): an empty configured
terminator falls back to a single linefeed, then each slice element is
written as one line. -/
def writeLines (lineEnd : List Char) (acc : List Char) (elems : List GoValue) :
    List Char × Option GoErr :=
  writeLinesLoop (if lineEnd = [] then ['\n'] else lineEnd) acc elems

/-- The unwrapping loop of `Encoder.Encode` (encode.go lines 84-86): strip
pointer and interface layers from the top-level value; a nil layer leaves an
invalid (absent) value. -/
def unwrapPI : GoValue → OptValue
  | .ptrV _ .nilV => .nilV
  | .ptrV _ (.someV e) => unwrapPI e
  | .ifaceV .nilV => .nilV
  | .ifaceV (.someV e) => unwrapPI e
  | v => .someV v

/-- `Encoder.Encode` (encode.go lines 77-98): nil input is a no-op success;
a value that unwraps to a slice is written line by line, anything else is
written as a single line (from the original, unstripped value).  The final
flush of the in-memory sink cannot fail and adds no bytes. -/
def Encode (lineEnd : List Char) : Option GoValue → List Char × Option GoErr
  | none => ([], none)
  | some v =>
    match unwrapPI v with
    | .someV (.sliceV elems) => writeLines lineEnd [] elems
    | _ => writeLine [] v

/-- The default line terminator installed by `NewEncoder` (encode.go line
69). -/
def defaultLineEnd : List Char := ['\n']

/-- `Marshal` (encode.go lines 39-46): run `Encode` with a fresh in-memory
buffer and the default configuration; on error return a nil byte slice
(`none`) together with the error, otherwise the buffer's bytes. -/
def Marshal (i : Option GoValue) : Option (List Char) × Option GoErr :=
  match Encode defaultLineEnd i with
  | (_, some e) => (none, some e)
  | (b, none) => (some b, none)

/-! ### Spec-side notions used to state the claims -/

/-- Numeric value of a decimal digit string (used to state that the integer
encoder emits canonical decimal text). -/
def decVal (cs : List Char) : Nat :=
  cs.foldl (fun a c => 10 * a + (c.toNat - 48)) 0

/-- The spec's notion of a field's "underlying leaf kind" being numeric:
unwrap pointer layers and test for an integer or floating-point kind
(spec §4.3, padding policy). -/
def underlyingLeafNumeric : GoType → Bool
  | .ptrT e => underlyingLeafNumeric e
  | .intT _ => true
  | .float64T => true
  | .float32T => true
  | _ => false

/-- Position `p` (0-based) of the line buffer is actually written by field
spec `s`: it lies in the field's declared range and the field's bytes reach
it. -/
def coversWith (s : fieldSpec) (p : Nat) : Prop :=
  s.startPos - 1 ≤ p ∧ p < s.endPos ∧ p - (s.startPos - 1) < s.value.length

instance (s : fieldSpec) (p : Nat) : Decidable (coversWith s p) := by
  unfold coversWith; infer_instance

/-- The byte that survives at position `p` after all the `copy` calls of
`encodeSpecs`: the byte of the last spec in declaration order that writes
`p`, if any. -/
def lastWriter : List fieldSpec → Nat → Option Char
  | [], _ => none
  | s :: rest, p =>
    match lastWriter rest p with
    | some c => some c
    | none =>
      if coversWith s p then s.value[p - (s.startPos - 1)]? else none

/-- Lines joined by a separator with no trailing separator (the spec's
stream framing). -/
def joinSep (sep : List Char) (lines : List (List Char)) : List Char :=
  (List.intersperse sep lines).flatten

/-- No field of the struct carries a parseable position declaration. -/
def allTagsInvalid : FieldList → Prop
  | .fnil => True
  | .fcons tag _ _ rest => parseTag tag = none ∧ allTagsInvalid rest

/-! ## Lemmas about the decimal digit loop -/

theorem natDecAux_append (f : Nat) : ∀ (n : Nat) (acc : List Char),
    natDecAux f n acc = natDecAux f n [] ++ acc := by
  induction f with
  | zero => intro n acc; rfl
  | succ f ih =>
    intro n acc
    simp only [natDecAux]
    by_cases h : n / 10 = 0
    · simp [h]
    · simp only [if_neg h]
      rw [ih (n / 10) (Nat.digitChar (n % 10) :: acc),
        ih (n / 10) [Nat.digitChar (n % 10)]]
      simp

theorem natDecAux_fuel (f1 : Nat) : ∀ (f2 n : Nat) (acc : List Char),
    n < f1 → n < f2 → natDecAux f1 n acc = natDecAux f2 n acc := by
  induction f1 with
  | zero => intro f2 n acc h1 _; omega
  | succ f1 ih =>
    intro f2 n acc h1 h2
    match f2 with
    | 0 => omega
    | f2 + 1 =>
      simp only [natDecAux]
      by_cases h : n / 10 = 0
      · simp [h]
      · simp only [if_neg h]
        have hn : 0 < n := by
          rcases Nat.eq_zero_or_pos n with h0 | h0
          · subst h0; simp at h
          · exact h0
        have hd : n / 10 < n := Nat.div_lt_self hn (by norm_num)
        exact ih f2 (n / 10) _ (by omega) (by omega)

theorem natDec_unfold (n : Nat) :
    natDec n = if n < 10 then [Nat.digitChar n]
      else natDec (n / 10) ++ [Nat.digitChar (n % 10)] := by
  unfold natDec
  simp only [natDecAux]
  have h10 : n / 10 = 0 ↔ n < 10 := Nat.div_eq_zero_iff (by norm_num)
  by_cases h : n < 10
  · rw [if_pos ((Nat.div_eq_zero_iff (by norm_num)).mpr h), if_pos h,
      Nat.mod_eq_of_lt h]
  · have hne : ¬ n / 10 = 0 := fun hc => h (h10.mp hc)
    rw [if_neg hne, if_neg h, natDecAux_append]
    have hn : 0 < n := by omega
    have hd : n / 10 < n := Nat.div_lt_self hn (by norm_num)
    rw [natDecAux_fuel n (n / 10 + 1) (n / 10) [] hd (by omega)]
    rfl

theorem natDec_ne_nil (n : Nat) : natDec n ≠ [] := by
  rw [natDec_unfold]
  by_cases h : n < 10 <;> simp [h]

theorem digitChar_isDigit : ∀ d : Nat, d < 10 → (Nat.digitChar d).isDigit = true := by
  decide

theorem digitChar_val : ∀ d : Nat, d < 10 → (Nat.digitChar d).toNat - 48 = d := by
  decide

theorem natDec_all_digit (n : Nat) : ∀ c ∈ natDec n, c.isDigit = true := by
  induction n using Nat.strong_induction_on with
  | _ n ih =>
    rw [natDec_unfold]
    by_cases h : n < 10
    · simp only [if_pos h, List.mem_singleton]
      intro c hc; subst hc; exact digitChar_isDigit n h
    · simp only [if_neg h, List.mem_append, List.mem_singleton]
      intro c hc
      rcases hc with hc | hc
      · exact ih (n / 10) (Nat.div_lt_self (by omega) (by norm_num)) c hc
      · subst hc; exact digitChar_isDigit _ (Nat.mod_lt n (by norm_num))

theorem natDec_head_ne_zero (n : Nat) (hn : n ≠ 0) :
    (natDec n).head? ≠ some '0' := by
  induction n using Nat.strong_induction_on with
  | _ n ih =>
    rw [natDec_unfold]
    by_cases h : n < 10
    · simp only [if_pos h, List.head?_cons]
      have : ∀ d : Nat, 1 ≤ d → d < 10 → Nat.digitChar d ≠ '0' := by decide
      intro hc
      exact this n (by omega) h (by injection hc)
    · simp only [if_neg h]
      have hne := natDec_ne_nil (n / 10)
      rcases hd : natDec (n / 10) with _ | ⟨c, cs⟩
      · exact absurd hd hne
      · simp only [List.cons_append, List.head?_cons]
        have := ih (n / 10) (Nat.div_lt_self (by omega) (by norm_num))
          (by omega)
        rw [hd] at this
        simpa using this

theorem decVal_natDec (n : Nat) : decVal (natDec n) = n := by
  induction n using Nat.strong_induction_on with
  | _ n ih =>
    rw [natDec_unfold]
    by_cases h : n < 10
    · simp only [if_pos h, decVal, List.foldl_cons, List.foldl_nil]
      rw [Nat.mul_zero, Nat.zero_add, digitChar_val n h]
    · simp only [if_neg h, decVal, List.foldl_append, List.foldl_cons,
        List.foldl_nil]
      have hrec := ih (n / 10) (Nat.div_lt_self (by omega) (by norm_num))
      unfold decVal at hrec
      rw [hrec, digitChar_val _ (Nat.mod_lt n (by norm_num))]
      omega

theorem natDec_length_le (k : Nat) : ∀ n : Nat, 1 ≤ k → n < 10 ^ k →
    (natDec n).length ≤ k := by
  induction k with
  | zero => intro n h; omega
  | succ k ih =>
    intro n _ hn
    rw [natDec_unfold]
    by_cases h : n < 10
    · simp [h]
    · simp only [if_neg h, List.length_append, List.length_singleton]
      have hk : 1 ≤ k := by
        by_contra hk
        have : k = 0 := by omega
        subst this
        simp [pow_succ] at hn
        omega
      have hdiv : n / 10 < 10 ^ k := by
        rw [Nat.div_lt_iff_lt_mul (by norm_num)]
        calc n < 10 ^ (k + 1) := hn
        _ = 10 ^ k * 10 := by rw [pow_succ]
      have := ih (n / 10) hk hdiv
      omega

/-! ## Lemmas about line-buffer assembly -/

theorem copyRange_length (data : List Char) (lo hi : Nat) (src : List Char) :
    (copyRange data lo hi src).length = data.length := by
  simp [copyRange]

theorem copyRange_getElem? (data : List Char) (lo hi : Nat) (src : List Char)
    (p : Nat) (hp : p < data.length) :
    (copyRange data lo hi src)[p]? =
      if lo ≤ p ∧ p < hi ∧ p - lo < src.length then src[p - lo]? else data[p]? := by
  unfold copyRange
  rw [List.getElem?_map, List.getElem?_range hp]
  rw [Option.map_some']
  by_cases h : lo ≤ p ∧ p < hi ∧ p - lo < src.length
  · rw [if_pos h, if_pos h, List.getD_eq_getElem?_getD,
      List.getElem?_eq_getElem h.2.2]
    rfl
  · rw [if_neg h, if_neg h, List.getD_eq_getElem?_getD,
      List.getElem?_eq_getElem hp]
    rfl

theorem encodeInto_length (specs : List fieldSpec) : ∀ data : List Char,
    (encodeInto data specs).length = data.length := by
  induction specs with
  | nil => intro data; rfl
  | cons s rest ih =>
    intro data
    show (encodeInto (copyRange data (s.startPos - 1) s.endPos s.value) rest).length = _
    rw [ih, copyRange_length]

theorem lastWriter_cons (s : fieldSpec) (rest : List fieldSpec) (p : Nat) :
    lastWriter (s :: rest) p =
      match lastWriter rest p with
      | some c => some c
      | none =>
        if coversWith s p then s.value[p - (s.startPos - 1)]? else none := rfl

theorem coversWith_iff (s : fieldSpec) (p : Nat) :
    coversWith s p ↔
      (s.startPos - 1 ≤ p ∧ p < s.endPos ∧ p - (s.startPos - 1) < s.value.length) :=
  Iff.rfl

theorem encodeInto_getElem?_of_lastWriter_none (specs : List fieldSpec) :
    ∀ (data : List Char) (p : Nat), lastWriter specs p = none →
      (encodeInto data specs)[p]? = data[p]? := by
  induction specs with
  | nil => intro data p _; rfl
  | cons s rest ih =>
    intro data p h
    rcases hr : lastWriter rest p with _ | c2
    · have h2 : (if coversWith s p then s.value[p - (s.startPos - 1)]? else none) = none := by
        rw [lastWriter_cons, hr] at h
        exact h
      by_cases hc : coversWith s p
      · rw [if_pos hc] at h2
        rw [List.getElem?_eq_none_iff] at h2
        exact absurd hc.2.2 (by omega)
      · show (encodeInto (copyRange data (s.startPos - 1) s.endPos s.value) rest)[p]? = _
        rw [ih _ p hr]
        by_cases hp : p < data.length
        · rw [copyRange_getElem? data _ _ _ p hp,
            if_neg (fun hand => hc ((coversWith_iff s p).mpr hand))]
        · rw [List.getElem?_eq_none_iff.mpr (by omega : data.length ≤ p),
            List.getElem?_eq_none_iff.mpr]
          rw [copyRange_length]
          omega
    · rw [lastWriter_cons, hr] at h
      exact absurd h (by simp)

theorem encodeInto_getElem?_of_lastWriter_some (specs : List fieldSpec) :
    ∀ (data : List Char) (p : Nat) (c : Char), lastWriter specs p = some c →
      p < data.length → (encodeInto data specs)[p]? = some c := by
  induction specs with
  | nil => intro data p c h; simp [lastWriter] at h
  | cons s rest ih =>
    intro data p c h hp
    show (encodeInto (copyRange data (s.startPos - 1) s.endPos s.value) rest)[p]? = some c
    rcases hr : lastWriter rest p with _ | c2
    · have h2 : (if coversWith s p then s.value[p - (s.startPos - 1)]? else none) = some c := by
        rw [lastWriter_cons, hr] at h
        exact h
      by_cases hc : coversWith s p
      · rw [if_pos hc] at h2
        rw [encodeInto_getElem?_of_lastWriter_none rest _ p hr,
          copyRange_getElem? data _ _ _ p hp,
          if_pos ((coversWith_iff s p).mp hc)]
        exact h2
      · rw [if_neg hc] at h2
        exact absurd h2 (by simp)
    · have h2 : c2 = c := by
        rw [lastWriter_cons, hr] at h
        injection h
      subst h2
      exact ih _ p c2 hr (by rw [copyRange_length]; exact hp)

theorem maxEndPos_foldl (specs : List fieldSpec) : ∀ a : Nat,
    List.foldl (fun ll s => if s.endPos > ll then s.endPos else ll) a specs =
      max a ((specs.map fieldSpec.endPos).foldr max 0) := by
  induction specs with
  | nil => intro a; simp
  | cons s rest ih =>
    intro a
    rw [List.foldl_cons, ih, List.map_cons, List.foldr_cons]
    by_cases h : s.endPos > a <;> simp only [if_pos, if_neg, h, ite_true, ite_false] <;> omega

theorem maxEndPos_eq (specs : List fieldSpec) :
    maxEndPos specs = (specs.map fieldSpec.endPos).foldr max 0 := by
  rw [maxEndPos, maxEndPos_foldl]
  omega

theorem endPos_le_maxEndPos (specs : List fieldSpec) (s : fieldSpec)
    (hs : s ∈ specs) : s.endPos ≤ maxEndPos specs := by
  rw [maxEndPos_eq]
  induction specs with
  | nil => cases hs
  | cons t rest ih =>
    rw [List.map_cons, List.foldr_cons]
    rcases List.mem_cons.mp hs with h | h
    · subst h; omega
    · have := ih h; omega

theorem encodeSpecs_length (specs : List fieldSpec) :
    (encodeSpecs specs).length = maxEndPos specs := by
  rw [encodeSpecs, encodeInto_length, List.length_replicate]

theorem lastWriter_eq_none_of_uncovered (specs : List fieldSpec) (p : Nat)
    (h : ∀ s ∈ specs, ¬(s.startPos ≤ p + 1 ∧ p + 1 ≤ s.endPos)) :
    lastWriter specs p = none := by
  induction specs with
  | nil => rfl
  | cons s rest ih =>
    rw [lastWriter_cons, ih (fun t ht => h t (List.mem_cons_of_mem s ht))]
    have hc : ¬ coversWith s p := by
      intro hc
      obtain ⟨h1, h2, h3⟩ := hc
      exact h s (List.mem_cons_self s rest) ⟨by omega, by omega⟩
    rw [if_neg hc]

theorem encodeSpecs_getElem?_space (specs : List fieldSpec) (p : Nat)
    (hp : p < maxEndPos specs) (h : lastWriter specs p = none) :
    (encodeSpecs specs)[p]? = some ' ' := by
  rw [encodeSpecs, encodeInto_getElem?_of_lastWriter_none specs _ p h,
    List.getElem?_replicate, if_pos hp]

theorem encodeSpecs_getElem?_writer (specs : List fieldSpec) (p : Nat)
    (c : Char) (h : lastWriter specs p = some c) (hp : p < maxEndPos specs) :
    (encodeSpecs specs)[p]? = some c := by
  rw [encodeSpecs]
  exact encodeInto_getElem?_of_lastWriter_some specs _ p c h
    (by rw [List.length_replicate]; exact hp)

/-! ## Helper lemmas shared by the claim theorems -/

theorem leftpadChar_eq : ∀ ty : GoType,
    leftpadChar ty = if underlyingLeafNumeric ty then '0' else ' '
  | .ptrT e => by
    have := leftpadChar_eq e
    simpa [leftpadChar, underlyingLeafNumeric] using this
  | .strT => by simp [leftpadChar, underlyingLeafNumeric]
  | .intT _ => by simp [leftpadChar, underlyingLeafNumeric]
  | .float64T => by simp [leftpadChar, underlyingLeafNumeric]
  | .float32T => by simp [leftpadChar, underlyingLeafNumeric]
  | .ifaceT => by simp [leftpadChar, underlyingLeafNumeric]
  | .structT _ => by simp [leftpadChar, underlyingLeafNumeric]
  | .marshalerT => by simp [leftpadChar, underlyingLeafNumeric]
  | .otherT _ => by simp [leftpadChar, underlyingLeafNumeric]

theorem parseTag_bounds (tag : List Char) (spec : fieldSpec)
    (h : parseTag tag = some spec) :
    1 ≤ spec.startPos ∧ spec.startPos ≤ spec.endPos ∧ spec.value = [] := by
  unfold parseTag at h
  split at h
  · split at h
    · split at h
      · rename_i hc
        cases h
        exact ⟨hc.1, hc.2, rfl⟩
      · cases h
    · cases h
  · split at h
    · split at h
      · split at h
        · rename_i hc
          cases h
          exact ⟨hc.1, hc.2, rfl⟩
        · cases h
      · cases h
    · cases h
  · cases h

theorem maxEndPos_singleton (s : fieldSpec) (h : 1 ≤ s.endPos) :
    maxEndPos [s] = s.endPos := by
  rw [maxEndPos_eq]
  simp only [List.map_cons, List.map_nil, List.foldr_cons, List.foldr_nil]
  omega

theorem encodeSpecs_singleton (s : fieldSpec) (h1 : 1 ≤ s.startPos)
    (h2 : s.startPos ≤ s.endPos) (h3 : s.fieldLength ≤ s.value.length) :
    encodeSpecs [s] =
      List.replicate (s.startPos - 1) ' ' ++ s.value.take s.fieldLength := by
  have hw : s.fieldLength = s.endPos - s.startPos + 1 := rfl
  have hend : 1 ≤ s.endPos := le_trans h1 h2
  apply List.ext_getElem?
  intro p
  have hlen : (encodeSpecs [s]).length = s.endPos := by
    rw [encodeSpecs_length, maxEndPos_singleton s hend]
  have hrlen : (List.replicate (s.startPos - 1) ' '
      ++ s.value.take s.fieldLength).length = s.endPos := by
    rw [List.length_append, List.length_replicate, List.length_take,
      Nat.min_eq_left h3]
    omega
  by_cases hp : p < s.endPos
  · have hp1 : p < (List.replicate (maxEndPos [s]) ' ').length := by
      rw [List.length_replicate, maxEndPos_singleton s hend]; exact hp
    have hstep : encodeSpecs [s] =
        copyRange (List.replicate (maxEndPos [s]) ' ')
          (s.startPos - 1) s.endPos s.value := by
      rw [encodeSpecs]
      rfl
    rw [hstep, copyRange_getElem? _ _ _ _ p hp1]
    by_cases hcov : s.startPos - 1 ≤ p
    · have hoff : p - (s.startPos - 1) < s.value.length := by omega
      rw [if_pos ⟨hcov, hp, hoff⟩]
      rw [List.getElem?_append_right (by rw [List.length_replicate]; exact hcov)]
      rw [List.length_replicate, List.getElem?_take]
      rw [if_pos (by omega)]
    · rw [if_neg (fun hand => hcov hand.1)]
      rw [List.getElem?_replicate,
        if_pos (show p < maxEndPos [s] by rw [maxEndPos_singleton s hend]; exact hp),
        List.getElem?_append_left (by rw [List.length_replicate]; omega),
        List.getElem?_replicate, if_pos (by omega)]
  · rw [List.getElem?_eq_none_iff.mpr (by omega : (encodeSpecs [s]).length ≤ p),
      List.getElem?_eq_none_iff.mpr (by omega : _ ≤ p)]

theorem lastWriter_empty_value (s : fieldSpec) (p : Nat) (h : s.value = []) :
    lastWriter [s] p = none := by
  rw [lastWriter_cons]
  have : ¬ coversWith s p := by
    intro hc
    have := hc.2.2
    rw [h] at this
    simp at this
  simp [lastWriter, this]

theorem encodeSpecs_empty_value (s : fieldSpec) (hv : s.value = [])
    (he : 1 ≤ s.endPos) :
    encodeSpecs [s] = List.replicate s.endPos ' ' := by
  apply List.ext_getElem?
  intro p
  by_cases hp : p < s.endPos
  · rw [encodeSpecs_getElem?_space [s] p
        (by rw [maxEndPos_singleton s he]; exact hp)
        (lastWriter_empty_value s p hv),
      List.getElem?_replicate, if_pos hp]
  · rw [List.getElem?_eq_none_iff.mpr, List.getElem?_eq_none_iff.mpr]
    · rw [List.length_replicate]; omega
    · rw [encodeSpecs_length, maxEndPos_singleton s he]; omega

theorem lastWriter_append_covers (l : List fieldSpec) (s : fieldSpec) (p : Nat)
    (hc : coversWith s p) :
    lastWriter (l ++ [s]) p = s.value[p - (s.startPos - 1)]? := by
  induction l with
  | nil =>
    rw [List.nil_append, lastWriter_cons]
    simp [lastWriter, hc]
  | cons t l ih =>
    rw [List.cons_append, lastWriter_cons, ih]
    rw [List.getElem?_eq_getElem hc.2.2]

theorem writeLinesLoop_all_ok (le : List Char) : ∀ (elems : List GoValue)
    (bs : List (List Char)) (acc : List Char),
    List.Forall₂ (fun w b => newValueEncoder w.typeOf w = .ok b) elems bs →
    writeLinesLoop le acc elems = (acc ++ joinSep le bs, none) := by
  intro elems
  induction elems with
  | nil =>
    intro bs acc h
    cases h
    simp [writeLinesLoop, joinSep]
  | cons v rest ih =>
    intro bs acc h
    cases h with
    | cons hv hrest =>
      cases rest with
      | nil =>
        cases hrest
        simp [writeLinesLoop, writeLine, hv, joinSep]
      | cons w rest2 =>
        cases hrest with
        | cons hw hrest2 =>
          show writeLinesLoop le acc (v :: w :: rest2) = _
          simp only [writeLinesLoop, writeLine, hv]
          rw [ih _ _ (List.Forall₂.cons hw hrest2)]
          simp only [joinSep, List.intersperse_cons₂, List.flatten_cons]
          simp [List.append_assoc]

theorem structEncoderSpecs_cons_ok (tag : List Char) (ty : GoType)
    (val : GoValue) (rest : FieldList) (spec : fieldSpec) (bytes : List Char)
    (specs : List fieldSpec)
    (hp : parseTag tag = some spec) (he : newValueEncoder ty val = .ok bytes)
    (hr : structEncoderSpecs rest = .ok specs) :
    structEncoderSpecs (.fcons tag ty val rest) = .ok
      ((if bytes.length < spec.fieldLength ∧ spec.leftpad then
          { spec with value :=
              (List.replicate (spec.fieldLength - bytes.length) (leftpadChar ty)
                ++ bytes) }
        else { spec with value := bytes }) :: specs) := by
  simp only [structEncoderSpecs, hp, he, hr]

theorem structEncoderSpecs_allInvalid : ∀ fs : FieldList, allTagsInvalid fs →
    structEncoderSpecs fs = .ok []
  | .fnil, _ => rfl
  | .fcons tag ty val rest, h => by
    have ih := structEncoderSpecs_allInvalid rest h.2
    simp only [structEncoderSpecs, h.1]
    exact ih

/-! ## Claim theorems -/

/-- C1: for every encoded line, the buffer's length equals the maximum
`endPos` among the accepted field specs (0 when there are none), every
position not covered by any accepted field's declared range holds the space
character, and a field whose (possibly padded) bytes are at least as long as
its width `endPos - startPos + 1` contributes exactly its leading `width`
bytes — `encodeSpecs` is total, so no error or signal is possible. -/
theorem claim1_buffer_assembly (specs : List fieldSpec)
    (_hinv : ∀ s ∈ specs, 1 ≤ s.startPos ∧ s.startPos ≤ s.endPos) :
    (encodeSpecs specs).length = (specs.map fieldSpec.endPos).foldr max 0
    ∧ (∀ p, p < (specs.map fieldSpec.endPos).foldr max 0 →
        (∀ s ∈ specs, ¬(s.startPos ≤ p + 1 ∧ p + 1 ≤ s.endPos)) →
        (encodeSpecs specs)[p]? = some ' ')
    ∧ (∀ s : fieldSpec, 1 ≤ s.startPos → s.startPos ≤ s.endPos →
        s.fieldLength ≤ s.value.length →
        encodeSpecs [s] =
          List.replicate (s.startPos - 1) ' ' ++ s.value.take s.fieldLength) := by
  refine ⟨?_, ?_, ?_⟩
  · rw [encodeSpecs_length, maxEndPos_eq]
  · intro p hp hunc
    exact encodeSpecs_getElem?_space specs p (by rw [maxEndPos_eq]; exact hp)
      (lastWriter_eq_none_of_uncovered specs p hunc)
  · intro s h1 h2 h3
    exact encodeSpecs_singleton s h1 h2 h3

/-- Witness for C1: the spec's truncation example — a width-5 field holding
9 bytes contributes exactly its first 5 bytes. -/
theorem claim1_witness :
    encodeSpecs [fieldSpec.mk 1 5 false (String.data ("123456789"))] =
      List.replicate (1 - 1) ' '
        ++ (String.data ("123456789")).take
          (fieldSpec.mk 1 5 false (String.data ("123456789"))).fieldLength :=
  (claim1_buffer_assembly [fieldSpec.mk 1 5 false (String.data ("123456789"))]
    (by decide)).2.2
    (fieldSpec.mk 1 5 false (String.data ("123456789")))
    (by decide) (by decide) (by decide)

/-- C9 counterexample: two accepted fields both declaring range 1–3, the
earlier with bytes "abc", the later with the single byte "x".  Position 2
(0-based index 1) lies in both declared ranges, yet the output buffer is
"xbc" — index 1 holds 'b' from the earlier field, while the later field has
no byte at that offset.  So it is false that at every overlapping position
the later-declared field's byte is the one that appears. -/
theorem claim9_counterexample :
    encodeSpecs [fieldSpec.mk 1 3 false ['a', 'b', 'c'],
        fieldSpec.mk 1 3 false ['x']] = ['x', 'b', 'c']
    ∧ ((1 : Nat) ≤ 1 + 1 ∧ 1 + 1 ≤ 3)
    ∧ (encodeSpecs [fieldSpec.mk 1 3 false ['a', 'b', 'c'],
        fieldSpec.mk 1 3 false ['x']])[1]? = some 'b'
    ∧ ¬ ((['x'] : List Char)[1 - (1 - 1)]? = some 'b') := by
  decide

/-- C9 (amended): the field bytes are copied in declaration order, so the
later field's byte wins at every position of its declared range that its
value bytes actually reach (offset below its value's length); overlap
positions beyond the later field's bytes keep the earlier field's byte. -/
theorem claim9_amended (pre : List fieldSpec) (s : fieldSpec) (p : Nat)
    (h1 : s.startPos - 1 ≤ p) (h2 : p < s.endPos)
    (h3 : p - (s.startPos - 1) < s.value.length) :
    (encodeSpecs (pre ++ [s]))[p]? = s.value[p - (s.startPos - 1)]? := by
  have hc : coversWith s p := ⟨h1, h2, h3⟩
  have hw := lastWriter_append_covers pre s p hc
  rw [List.getElem?_eq_getElem h3] at hw
  rw [List.getElem?_eq_getElem h3]
  exact encodeSpecs_getElem?_writer (pre ++ [s]) p _ hw
    (lt_of_lt_of_le h2 (endPos_le_maxEndPos _ s (by simp)))

/-- Witness for C9 (amended): with the counterexample's two fields, the
later field's single byte does win at the one position it reaches. -/
theorem claim9_witness :
    (encodeSpecs ([fieldSpec.mk 1 3 false ['a', 'b', 'c']]
        ++ [fieldSpec.mk 1 3 false ['x']]))[0]? =
      (fieldSpec.mk 1 3 false ['x']).value[0 - ((fieldSpec.mk 1 3 false ['x']).startPos - 1)]? :=
  claim9_amended [fieldSpec.mk 1 3 false ['a', 'b', 'c']]
    (fieldSpec.mk 1 3 false ['x']) 0 (by decide) (by decide) (by decide)

/-- C2: an accepted field whose produced bytes are shorter than its width
and whose leftpad flag is set is left-padded to the full width with `'0'`
when the declared type's underlying leaf kind (after unwrapping pointers) is
an integer or floating-point kind and `' '` otherwise; without leftpad the
bytes are recorded unpadded (left-aligned, the remaining width keeping the
buffer's space fill).  Concretely, integer `2` in a width-5 leftpad field
yields "00002" and text "two" yields "  two". -/
theorem claim2_leftpad :
    (∀ (tag : List Char) (ty : GoType) (val : GoValue) (rest : FieldList)
        (spec : fieldSpec) (bytes : List Char) (specs : List fieldSpec),
        parseTag tag = some spec → newValueEncoder ty val = .ok bytes →
        structEncoderSpecs rest = .ok specs →
        bytes.length < spec.fieldLength → spec.leftpad = true →
        structEncoderSpecs (.fcons tag ty val rest) = .ok
          ({ spec with value :=
              (List.replicate (spec.fieldLength - bytes.length)
                (if underlyingLeafNumeric ty then '0' else ' ') ++ bytes) } :: specs))
    ∧ (∀ (tag : List Char) (ty : GoType) (val : GoValue) (rest : FieldList)
        (spec : fieldSpec) (bytes : List Char) (specs : List fieldSpec),
        parseTag tag = some spec → newValueEncoder ty val = .ok bytes →
        structEncoderSpecs rest = .ok specs →
        spec.leftpad = false →
        structEncoderSpecs (.fcons tag ty val rest) = .ok
          ({ spec with value := bytes } :: specs))
    ∧ structEncoder (GoValue.structV (.fcons (String.data ("1,5,leftpad"))
        (GoType.intT .int) (GoValue.intV .int 2) .fnil)) = .ok (String.data ("00002"))
    ∧ structEncoder (GoValue.structV (.fcons (String.data ("1,5,leftpad"))
        GoType.strT (GoValue.strV ['t', 'w', 'o']) .fnil)) = .ok (String.data ("  two")) := by
  refine ⟨?_, ?_, by decide, by decide⟩
  · intro tag ty val rest spec bytes specs hp he hr hshort hlp
    rw [structEncoderSpecs_cons_ok tag ty val rest spec bytes specs hp he hr,
      if_pos (by rw [hlp]; exact ⟨hshort, rfl⟩), leftpadChar_eq]
  · intro tag ty val rest spec bytes specs hp he hr hlp
    rw [structEncoderSpecs_cons_ok tag ty val rest spec bytes specs hp he hr,
      if_neg (by rw [hlp]; simp)]

/-- Witness for C2: the first conjunct applied to the width-5 leftpad
integer field holding 2, whose encoded byte "2" is padded to "00002". -/
theorem claim2_witness :
    structEncoderSpecs (.fcons (String.data ("1,5,leftpad")) (GoType.intT .int)
        (GoValue.intV .int 2) .fnil) = .ok
      ({ fieldSpec.mk 1 5 true [] with value :=
          (List.replicate ((fieldSpec.mk 1 5 true []).fieldLength - (itoa 2).length)
            (if underlyingLeafNumeric (GoType.intT .int) then '0' else ' ')
            ++ itoa 2) } :: []) :=
  claim2_leftpad.1 (String.data ("1,5,leftpad")) (GoType.intT .int)
    (GoValue.intV .int 2) .fnil (fieldSpec.mk 1 5 true []) (itoa 2) []
    (by decide) (by decide) (by decide) (by decide) (by decide)

/-- C3 counterexample: a nil `*int` field with tag `"1,5,leftpad"` produces
zero bytes, but because the empty byte string is shorter than the width and
leftpad is set, the field's range is filled with the integer fill character
`'0'` — the encoded line is "00000", not five spaces.  (This matches the
repository's own test for `DifferentFixedTags{}`.)  So the declared width of
an absent field does not always remain space-filled. -/
theorem claim3_counterexample :
    structEncoder (GoValue.structV (.fcons (String.data ("1,5,leftpad"))
        (GoType.ptrT (GoType.intT .int)) (GoValue.ptrV (GoType.intT .int) .nilV)
        .fnil)) = .ok (String.data ("00000"))
    ∧ String.data ("00000") ≠ List.replicate 5 ' ' := by
  decide

/-- C3 (amended): a nil pointer or interface value produces zero bytes — it
is omitted, not zero-filled — and the field's declared width stays
space-filled whenever leftpad is unset; when leftpad is set the width is
filled entirely with the field's padding fill character (which is `'0'` for
numeric leaf kinds and `' '` otherwise). -/
theorem claim3_amended :
    (∀ e : GoType,
        ptrInterfaceEncoder (GoValue.ptrV e .nilV) = .ok []
        ∧ ptrInterfaceEncoder (GoValue.ifaceV .nilV) = .ok []
        ∧ newValueEncoder (GoType.ptrT e) (GoValue.ptrV e .nilV) = .ok []
        ∧ newValueEncoder GoType.ifaceT (GoValue.ifaceV .nilV) = .ok [])
    ∧ (∀ (tag : List Char) (e : GoType) (spec : fieldSpec),
        parseTag tag = some spec →
        structEncoder (GoValue.structV (.fcons tag (GoType.ptrT e)
            (GoValue.ptrV e .nilV) .fnil)) =
          .ok (List.replicate (spec.startPos - 1) ' '
            ++ List.replicate spec.fieldLength
              (if spec.leftpad then leftpadChar (GoType.ptrT e) else ' '))) := by
  constructor
  · intro e
    exact ⟨rfl, rfl, rfl, rfl⟩
  · intro tag e spec h
    obtain ⟨hb1, hb2, _⟩ := parseTag_bounds tag spec h
    have hw1 : 1 ≤ spec.fieldLength := by unfold fieldSpec.fieldLength; omega
    show (structEncoderSpecs _).map encodeSpecs = _
    rw [structEncoderSpecs_cons_ok tag (GoType.ptrT e)
      (GoValue.ptrV e .nilV) .fnil spec [] [] h rfl rfl]
    by_cases hlp : spec.leftpad = true
    · rw [if_pos ⟨hw1, hlp⟩]
      simp only [Except.map]
      rw [if_pos hlp]
      rw [encodeSpecs_singleton
        ({ spec with value :=
          (List.replicate (spec.fieldLength - ([] : List Char).length)
            (leftpadChar (GoType.ptrT e)) ++ []) })
        hb1 hb2 (by simp [fieldSpec.fieldLength])]
      simp [fieldSpec.fieldLength, List.take_replicate]
    · rw [if_neg (fun hand => hlp hand.2)]
      simp only [Except.map]
      rw [encodeSpecs_empty_value { spec with value := [] } rfl (le_trans hb1 hb2)]
      show Except.ok (List.replicate spec.endPos ' ') = _
      rw [if_neg hlp]
      have he2 : spec.endPos = (spec.startPos - 1) + spec.fieldLength := by
        unfold fieldSpec.fieldLength; omega
      rw [he2, List.replicate_add]

/-- Witness for C3 (amended): the leftpad nil `*int` field from the
counterexample, where the fill character resolves to `'0'`. -/
theorem claim3_witness :
    structEncoder (GoValue.structV (.fcons (String.data ("1,5,leftpad"))
        (GoType.ptrT (GoType.intT .int)) (GoValue.ptrV (GoType.intT .int) .nilV)
        .fnil)) =
      .ok (List.replicate ((fieldSpec.mk 1 5 true []).startPos - 1) ' '
        ++ List.replicate (fieldSpec.mk 1 5 true []).fieldLength
          (if (fieldSpec.mk 1 5 true []).leftpad
            then leftpadChar (GoType.ptrT (GoType.intT .int)) else ' ')) :=
  claim3_amended.2 (String.data ("1,5,leftpad")) (GoType.intT .int)
    (fieldSpec.mk 1 5 true []) (by decide)

/-- C4: a field whose position declaration is absent or malformed is
silently skipped — it contributes no spec, hence nothing to the buffer or
its length, and no error; a struct none of whose fields carries a valid
declaration encodes to a zero-length buffer.  The example tags cover the
absent tag, a wrong token count, non-numeric bounds, and `end < start`. -/
theorem claim4_invalid_tags :
    (∀ (tag : List Char) (ty : GoType) (val : GoValue) (rest : FieldList),
        parseTag tag = none →
        structEncoderSpecs (.fcons tag ty val rest) = structEncoderSpecs rest)
    ∧ (∀ fs : FieldList, allTagsInvalid fs →
        structEncoder (GoValue.structV fs) = .ok [])
    ∧ parseTag [] = none
    ∧ parseTag (String.data ("5")) = none
    ∧ parseTag (String.data ("a,b")) = none
    ∧ parseTag (String.data ("5,2")) = none := by
  refine ⟨?_, ?_, by decide, by decide, by decide, by decide⟩
  · intro tag ty val rest h
    simp only [structEncoderSpecs, h]
  · intro fs h
    show (structEncoderSpecs fs).map encodeSpecs = _
    rw [structEncoderSpecs_allInvalid fs h]
    rfl

/-- Witness for C4: a struct whose only field is a bool with the malformed
tag `"5"` — the field is skipped before its value could fail to encode, and
the struct encodes to the empty buffer. -/
theorem claim4_witness :
    structEncoder (GoValue.structV (.fcons (String.data ("5"))
        (GoType.otherT ("bool")) (GoValue.otherV ("bool")) .fnil)) = .ok [] :=
  claim4_invalid_tags.2.1 (.fcons (String.data ("5"))
    (GoType.otherT ("bool")) (GoValue.otherV ("bool")) .fnil)
    ⟨by decide, trivial⟩

/-- C5: `Encode` of nil succeeds writing zero bytes; when the top-level
value unwraps (through pointer/interface layers) to a slice, each element is
encoded as one line with the terminator between consecutive lines and never
after the last (so the sink holds the lines joined by the terminator); an
empty slice encodes to zero bytes successfully; and two one-byte lines with
the default terminator yield exactly "X\nY". -/
theorem claim5_record_writer :
    (∀ lineEnd : List Char, Encode lineEnd none = ([], none))
    ∧ (∀ (lineEnd : List Char) (v : GoValue) (elems : List GoValue)
        (bs : List (List Char)),
        unwrapPI v = .someV (.sliceV elems) →
        List.Forall₂ (fun w b => newValueEncoder w.typeOf w = .ok b) elems bs →
        Encode lineEnd (some v) =
          (joinSep (if lineEnd = [] then ['\n'] else lineEnd) bs, none))
    ∧ (∀ (lineEnd : List Char) (v : GoValue),
        unwrapPI v = .someV (.sliceV []) → Encode lineEnd (some v) = ([], none))
    ∧ Encode defaultLineEnd
        (some (GoValue.sliceV [GoValue.strV ['X'], GoValue.strV ['Y']]))
      = (String.data ("X\nY"), none) := by
  refine ⟨fun _ => rfl, ?_, ?_, by decide⟩
  · intro lineEnd v elems bs hu hf
    show (match unwrapPI v with
      | .someV (.sliceV elems) => writeLines lineEnd [] elems
      | _ => writeLine [] v) = _
    rw [hu]
    show writeLinesLoop (if lineEnd = [] then ['\n'] else lineEnd) [] elems = _
    rw [writeLinesLoop_all_ok (if lineEnd = [] then ['\n'] else lineEnd) elems bs [] hf]
    rw [List.nil_append]
  · intro lineEnd v hu
    show (match unwrapPI v with
      | .someV (.sliceV elems) => writeLines lineEnd [] elems
      | _ => writeLine [] v) = _
    rw [hu]
    rfl

/-- Witness for C5: the "X\nY" framing instance obtained through the general
slice conjunct. -/
theorem claim5_witness :
    Encode ['\n'] (some (GoValue.sliceV [GoValue.strV ['X'], GoValue.strV ['Y']]))
      = (joinSep (if (['\n'] : List Char) = [] then ['\n'] else ['\n'])
          [['X'], ['Y']], none) :=
  claim5_record_writer.2.1 ['\n']
    (GoValue.sliceV [GoValue.strV ['X'], GoValue.strV ['Y']])
    [GoValue.strV ['X'], GoValue.strV ['Y']] [['X'], ['Y']] rfl
    (List.Forall₂.cons rfl (List.Forall₂.cons rfl List.Forall₂.nil))

/-- C7: a type of unrecognized kind — not a TextMarshaler implementor,
pointer, interface, struct, string, signed integer or 32/64-bit float —
always encodes to a `MarshalInvalidTypeError` carrying the type's name, and
in particular a top-level boolean fails that way. -/
theorem claim7_invalid_type :
    (∀ (name : String) (v : GoValue),
        newValueEncoder (GoType.otherT name) v = .error (.invalidType name))
    ∧ Encode defaultLineEnd (some (GoValue.otherV ("bool")))
        = ([], some (.invalidType ("bool")))
    ∧ Marshal (some (GoValue.otherV ("bool")))
        = (none, some (.invalidType ("bool"))) := by
  refine ⟨?_, by decide, by decide⟩
  intro name v
  cases v <;> rfl

/-- Witness for C7: the general conjunct evaluated at a boolean value. -/
theorem claim7_witness :
    newValueEncoder (GoType.otherT ("bool")) (GoValue.otherV ("bool"))
      = .error (.invalidType ("bool")) :=
  claim7_invalid_type.1 ("bool") (GoValue.otherV ("bool"))

/-- C8: the first field-level error aborts the whole line (the remaining
fields are never consulted), and the first line-level error aborts the whole
multi-line encode: the loop returns that error with only the bytes of the
preceding lines (each followed by the terminator) in the sink, and the
elements after the failing one are never encoded. -/
theorem claim8_first_error_aborts :
    (∀ (tag : List Char) (ty : GoType) (val : GoValue) (rest : FieldList)
        (spec : fieldSpec) (e : GoErr),
        parseTag tag = some spec → newValueEncoder ty val = .error e →
        structEncoderSpecs (.fcons tag ty val rest) = .error e)
    ∧ (∀ (lineEnd acc : List Char) (v : GoValue) (e : GoErr)
        (rest : List GoValue),
        newValueEncoder v.typeOf v = .error e →
        writeLinesLoop lineEnd acc (v :: rest) = (acc, some e))
    ∧ (∀ (lineEnd : List Char) (pre : List GoValue) (bs : List (List Char))
        (v : GoValue) (e : GoErr) (rest : List GoValue),
        List.Forall₂ (fun w b => newValueEncoder w.typeOf w = .ok b) pre bs →
        newValueEncoder v.typeOf v = .error e →
        writeLinesLoop lineEnd [] (pre ++ v :: rest)
          = ((bs.map (fun b => b ++ lineEnd)).flatten, some e)) := by
  refine ⟨?_, ?_, ?_⟩
  · intro tag ty val rest spec e hp he
    simp only [structEncoderSpecs, hp, he]
  · intro lineEnd acc v e rest h
    cases rest <;> simp [writeLinesLoop, writeLine, h]
  · intro lineEnd pre bs v e rest hf he
    have main : ∀ (pre : List GoValue) (bs : List (List Char)) (acc : List Char),
        List.Forall₂ (fun w b => newValueEncoder w.typeOf w = .ok b) pre bs →
        writeLinesLoop lineEnd acc (pre ++ v :: rest)
          = (acc ++ (bs.map (fun b => b ++ lineEnd)).flatten, some e) := by
      intro pre
      induction pre with
      | nil =>
        intro bs acc hf2
        cases hf2
        rw [List.nil_append, List.map_nil, List.flatten_nil, List.append_nil]
        cases rest <;> simp [writeLinesLoop, writeLine, he]
      | cons w pre2 ih =>
        intro bs acc hf2
        cases hf2 with
        | cons hw hrest =>
          rw [List.cons_append]
          rcases hsplit : pre2 ++ v :: rest with _ | ⟨y, ys⟩
          · exact absurd hsplit (by simp)
          · show writeLinesLoop lineEnd acc (w :: y :: ys) = _
            simp only [writeLinesLoop, writeLine, hw]
            rw [← hsplit, ih _ _ hrest]
            simp [List.append_assoc]
    rw [main pre bs [] hf, List.nil_append]

/-- Witness for C8: one good line "X" followed by a boolean element — the
loop stops with the invalid-type error, the sink holding only "X" and its
terminator. -/
theorem claim8_witness :
    writeLinesLoop ['\n'] []
        ([GoValue.strV ['X']] ++ GoValue.otherV ("bool") :: [])
      = ((([['X']] : List (List Char)).map (fun b => b ++ ['\n'])).flatten,
          some (.invalidType ("bool"))) :=
  claim8_first_error_aborts.2.2 ['\n'] [GoValue.strV ['X']] [['X']]
    (GoValue.otherV ("bool")) (.invalidType ("bool")) []
    (List.Forall₂.cons rfl List.Forall₂.nil) rfl

/-- C10: whenever the underlying `Encode` run ends with an error, `Marshal`
returns a nil byte slice together with that error — it never returns the
partially accumulated bytes alongside an error. -/
theorem claim10_marshal_nil_on_error (i : Option GoValue) :
    (∀ (buf : List Char) (e : GoErr),
        Encode defaultLineEnd i = (buf, some e) → Marshal i = (none, some e))
    ∧ ((Marshal i).2.isSome → (Marshal i).1 = none) := by
  constructor
  · intro buf e h
    unfold Marshal
    rw [h]
  · intro h
    unfold Marshal at h ⊢
    rcases hE : Encode defaultLineEnd i with ⟨b, oe⟩
    cases oe
    · rw [hE] at h
      have h2 : (false = true) := h
      cases h2
    · rfl

/-- Witness for C10: the failing boolean input, where `Encode` ends with an
invalid-type error and `Marshal` returns the nil slice with it. -/
theorem claim10_witness :
    Marshal (some (GoValue.otherV ("bool")))
      = (none, some (.invalidType ("bool"))) :=
  (claim10_marshal_nil_on_error (some (GoValue.otherV ("bool")))).1 []
    (.invalidType ("bool")) (by decide)

/-- C6: leaf scalars encode as follows — a string yields its raw bytes; a
signed integer of any kind yields canonical decimal text (digits only, no
leading zero except for "0", value round-tripping to the integer) with a
minus sign exactly when negative and no padding; a 32- or 64-bit float
yields fixed-notation decimal text: optional minus, the integer digits, a
point, and exactly two digit characters — never scientific notation or a
forced plus sign.  Zero values (`0`, `0.0`, the empty string) are encoded
this way normally rather than omitted. -/
theorem claim6_scalars :
    (∀ s : List Char, newValueEncoder GoType.strT (GoValue.strV s) = .ok s)
    ∧ (∀ (k : IntKind) (n : Int),
        newValueEncoder (GoType.intT k) (GoValue.intV k n) = .ok (itoa n))
    ∧ (∀ n : Int, (0 ≤ n → itoa n = natDec n.toNat)
        ∧ (n < 0 → itoa n = '-' :: natDec n.natAbs))
    ∧ (∀ m : Nat, (∀ c ∈ natDec m, c.isDigit = true)
        ∧ (m ≠ 0 → (natDec m).head? ≠ some '0')
        ∧ decVal (natDec m) = m)
    ∧ (∀ x : Rat,
        newValueEncoder GoType.float64T (GoValue.f64V x) = .ok (fmtFixed 2 x)
        ∧ newValueEncoder GoType.float32T (GoValue.f32V x) = .ok (fmtFixed 2 x))
    ∧ (∀ x : Rat, ∃ fr : List Char,
        fmtFixed 2 x = (if x.num < 0 then ['-'] else [])
          ++ natDec ((roundHalfEven ((x.num.natAbs * 10 ^ 2 : Nat) : Int)
              (x.den : Int)).toNat / 10 ^ 2) ++ '.' :: fr
        ∧ fr.length = 2 ∧ (∀ c ∈ fr, c.isDigit = true))
    ∧ (newValueEncoder (GoType.intT .int) (GoValue.intV .int 0) = .ok ['0']
        ∧ newValueEncoder GoType.float64T (GoValue.f64V (mkRat 0 1))
            = .ok (String.data ("0.00"))
        ∧ newValueEncoder GoType.strT (GoValue.strV []) = .ok []) := by
  refine ⟨fun s => rfl, fun k n => rfl, ?_, ?_, fun x => ⟨rfl, rfl⟩, ?_, by decide⟩
  · intro n
    constructor
    · intro h
      rw [itoa, if_neg (by omega)]
    · intro h
      rw [itoa, if_pos h]
  · intro m
    exact ⟨natDec_all_digit m, natDec_head_ne_zero m, decVal_natDec m⟩
  · intro x
    refine ⟨List.replicate
        (2 - (natDec ((roundHalfEven ((x.num.natAbs * 10 ^ 2 : Nat) : Int)
          (x.den : Int)).toNat % 10 ^ 2)).length) '0'
      ++ natDec ((roundHalfEven ((x.num.natAbs * 10 ^ 2 : Nat) : Int)
          (x.den : Int)).toNat % 10 ^ 2), ?_, ?_, ?_⟩
    · show fmtFixed 2 x = _
      unfold fmtFixed
      simp [List.append_assoc]
    · have hlt : (roundHalfEven ((x.num.natAbs * 10 ^ 2 : Nat) : Int)
          (x.den : Int)).toNat % 10 ^ 2 < 10 ^ 2 :=
        Nat.mod_lt _ (by norm_num)
      have hle := natDec_length_le 2 _ (by norm_num) hlt
      rw [List.length_append, List.length_replicate]
      omega
    · intro c hc
      rcases List.mem_append.mp hc with hc | hc
      · rw [List.eq_of_mem_replicate hc]
        rfl
      · exact natDec_all_digit _ c hc

/-- Witness for C6: the sign conjunct evaluated at the negative integer
-45. -/
theorem claim6_witness : itoa (-45) = '-' :: natDec (Int.natAbs (-45)) :=
  (claim6_scalars.2.2.1 (-45)).2 (by decide)

end Fixedwidth
